import Mathlib

/-!
Verification development for the worker repository: trusted-operation pool
nonce reconciliation (`enclave/src/rpc/system/mod.rs`), sidechain block
persistence (`worker/src/sidechain_db.rs`), and the slot-based block
production entry point (`enclave-runtime/src/top_pool_execution.rs`).

Machine integers of the source (u32 nonces, u64 block numbers) are modelled
as `Nat`; none of the verified operations can overflow in the source on the
inputs the theorems quantify over, and nonces/block numbers only ever grow
by small increments.
-/

set_option autoImplicit false

namespace Worker

/-! ## Basic data model

`AccountId` is an opaque 32-byte public key in the source, `Index` the
account nonce (`u32`), `ShardIdentifier` an opaque 32-byte id.  They are
modelled as `Nat`.  A pool tag (the SCALE encoding of `(account, nonce)`
in `adjust_nonce`) is modelled as the pair itself: the encoding of a
fixed-width account id followed by a nonce is injective, so comparing
encodings is comparing pairs. -/

abbrev AccountId := Nat
abbrev Index := Nat
abbrev ShardIdentifier := Nat
abbrev Tag := AccountId × Index

/-- One entry of the pool's `ready(shard)` iterator, as `adjust_nonce`
sees it: only its `provides` tag list is inspected.  Mirrors
`InPoolOperation::provides` in `enclave/src/rpc/system/mod.rs`. -/
structure ReadyTx where
  provides : List Tag
  deriving Repr, DecidableEq

/-- The trusted-operation pool as `adjust_nonce` consumes it: the
`ready(shard)` method, returning the Ready set for a shard in the pool's
order (per sender ascending by nonce). -/
structure TopPool where
  ready : ShardIdentifier → List ReadyTx

/-- The fold step of the `for tx in pool.ready(shard)` loop in
`adjust_nonce`: `tx.provides().get(0) == Some(&current_tag)` with
`current_tag = (account, current_nonce).encode()`; on a match the running
nonce is incremented and the tag recomputed (the tag is a function of the
running nonce, so only the nonce is threaded). -/
def adjustStep (account : AccountId) (current : Index) (tx : ReadyTx) : Index :=
  if tx.provides.head? = some (account, current) then current + 1 else current

/-- Embedding of `adjust_nonce` (`enclave/src/rpc/system/mod.rs`, lines
207-241).  The pool is threaded explicitly to make mutation observable:
the only pool access the source performs is the read-only `ready(shard)`
call (the source takes `&P`, a shared borrow), so the pool comes back
untouched. -/
def adjust_nonce (pool : TopPool) (account : AccountId) (nonce : Index)
    (shard : ShardIdentifier) : Index × TopPool :=
  let txs := pool.ready shard
  (txs.foldl (adjustStep account) nonce, pool)

/-- The nonce `tx` carries for `account`, when its first `provides` tag
belongs to `account`.  Entries of other accounts (or with no tag) never
match `current_tag` in `adjust_nonce` and are skipped by the loop. -/
def txNonce (account : AccountId) (tx : ReadyTx) : Option Index :=
  match tx.provides.head? with
  | some (a, k) => if a = account then some k else none
  | none => none

/-- The nonces of the entries of a ready list that belong to `account`. -/
def accountNonces (account : AccountId) (txs : List ReadyTx) : List Index :=
  txs.filterMap (txNonce account)

/-- Modelled from the spec: 4.5 Nonce Reconciler, `reconcile` — starts at
the committed nonce, scans the account's ready nonces in ascending order,
increments by one on an exact match of the running value, stops at the
first gap. -/
def reconcile_spec (committed : Index) : List Index → Index
  | [] => committed
  | k :: rest => if k = committed then reconcile_spec (committed + 1) rest else committed

/-- The nonce-indexed fold step: what `adjustStep` does on an entry of
the scanned account, expressed on the bare nonce. -/
def nonceStep (current : Index) (k : Index) : Index :=
  if k = current then current + 1 else current

theorem adjustStep_txNonce_none (account : AccountId) (tx : ReadyTx) (n : Index)
    (h : txNonce account tx = none) : adjustStep account n tx = n := by
  unfold txNonce at h
  unfold adjustStep
  cases hh : tx.provides.head? with
  | none => simp [hh]
  | some tag =>
    obtain ⟨a, k⟩ := tag
    rw [hh] at h
    by_cases ha : a = account
    · simp [ha] at h
    · simp [hh, ha]

theorem adjustStep_txNonce_some (account : AccountId) (tx : ReadyTx) (n k : Index)
    (h : txNonce account tx = some k) : adjustStep account n tx = nonceStep n k := by
  unfold txNonce at h
  unfold adjustStep nonceStep
  cases hh : tx.provides.head? with
  | none => rw [hh] at h; exact absurd h (by simp)
  | some tag =>
    obtain ⟨a, j⟩ := tag
    rw [hh] at h
    have h2 : (if a = account then some j else none) = some k := h
    by_cases ha : a = account
    · rw [if_pos ha] at h2
      have hjk : j = k := Option.some.inj h2
      simp [hh, ha, hjk]
    · simp [ha] at h2

theorem foldl_adjustStep_eq_foldl_nonceStep (account : AccountId) :
    ∀ (txs : List ReadyTx) (n : Index),
      txs.foldl (adjustStep account) n = (accountNonces account txs).foldl nonceStep n := by
  intro txs
  induction txs with
  | nil => intro n; rfl
  | cons tx rest ih =>
    intro n
    simp only [List.foldl_cons, accountNonces, List.filterMap_cons]
    cases h : txNonce account tx with
    | none =>
      rw [adjustStep_txNonce_none account tx n h, ih]
      rfl
    | some k =>
      rw [adjustStep_txNonce_some account tx n k h]
      simp only [List.foldl_cons]
      exact ih (nonceStep n k)

theorem foldl_nonceStep_of_all_ne (n : Index) :
    ∀ (ns : List Index), (∀ k ∈ ns, k ≠ n) → ns.foldl nonceStep n = n := by
  intro ns
  induction ns with
  | nil => intro _; rfl
  | cons k rest ih =>
    intro hne
    have hk : k ≠ n := hne k (List.mem_cons_self k rest)
    simp only [List.foldl_cons, nonceStep, if_neg hk]
    exact ih fun j hj => hne j (List.mem_cons_of_mem k hj)

theorem foldl_nonceStep_eq_reconcile_spec :
    ∀ (ns : List Index) (n : Index), ns.Chain' (· < ·) → (∀ k ∈ ns, n ≤ k) →
      ns.foldl nonceStep n = reconcile_spec n ns := by
  intro ns
  induction ns with
  | nil => intro n _ _; rfl
  | cons k rest ih =>
    intro n hchain hge
    have hrest_chain : rest.Chain' (· < ·) := hchain.tail
    have hk_lt : ∀ j ∈ rest, k < j := by
      intro j hj
      have hpw := List.chain'_iff_pairwise.mp hchain
      exact (List.pairwise_cons.mp hpw).1 j hj
    by_cases hk : k = n
    · subst hk
      simp only [List.foldl_cons, nonceStep, if_pos rfl, reconcile_spec, if_pos rfl]
      exact ih (k + 1) hrest_chain (fun j hj => Nat.succ_le_of_lt (hk_lt j hj))
    · have hn_lt : n < k := Nat.lt_of_le_of_ne (hge k (List.mem_cons_self k rest)) (fun h => hk h.symm)
      simp only [List.foldl_cons, nonceStep, if_neg hk, reconcile_spec]
      exact foldl_nonceStep_of_all_ne n rest
        (fun j hj => Nat.ne_of_gt (Nat.lt_trans hn_lt (hk_lt j hj)))

/-- **C1** — Nonce reconciliation: for every pool, shard, account and
committed nonce `n`, provided the account's ready nonces appear in strictly
ascending order and none is below the committed nonce (the pool's Ready
invariant), `adjust_nonce` starts at `n`, increments by exactly one for
each ready entry of that account whose nonce equals the running value, and
halts its advance at the first gap — i.e. it computes `reconcile_spec`. -/
theorem adjust_nonce_eq_reconcile_spec (pool : TopPool) (account : AccountId)
    (n : Index) (shard : ShardIdentifier)
    (hsorted : (accountNonces account (pool.ready shard)).Chain' (· < ·))
    (hge : ∀ k ∈ accountNonces account (pool.ready shard), n ≤ k) :
    (adjust_nonce pool account n shard).1 =
      reconcile_spec n (accountNonces account (pool.ready shard)) := by
  unfold adjust_nonce
  simp only
  rw [foldl_adjustStep_eq_foldl_nonceStep]
  exact foldl_nonceStep_eq_reconcile_spec _ n hsorted hge

/-- A concrete pool whose Ready set for shard 0 holds the account-1
entries with nonces 5, 6 and 8. -/
def examplePool : TopPool :=
  ⟨fun s => if s = 0 then [⟨[(1, 5)]⟩, ⟨[(1, 6)]⟩, ⟨[(1, 8)]⟩] else []⟩

/-- Witness for **C1**: with committed nonce 5 and ready pool nonces
{5, 6, 8} for the account, the reconciled nonce is 7 (the gap before 8
halts the scan), via `adjust_nonce_eq_reconcile_spec` at the concrete
pool. -/
theorem adjust_nonce_eq_reconcile_spec_witness :
    (adjust_nonce examplePool 1 5 0).1 = reconcile_spec 5 [5, 6, 8] ∧
      (adjust_nonce examplePool 1 5 0).1 = 7 := by
  have hlist : accountNonces 1 (examplePool.ready 0) = [5, 6, 8] := by decide
  have h := adjust_nonce_eq_reconcile_spec examplePool 1 5 0
    (by rw [hlist]; norm_num [List.chain'_cons]) (by rw [hlist]; decide)
  rw [hlist] at h
  exact ⟨h, by rw [h]; decide⟩

theorem foldl_adjustStep_ge (account : AccountId) :
    ∀ (txs : List ReadyTx) (n : Index), n ≤ txs.foldl (adjustStep account) n := by
  intro txs
  induction txs with
  | nil => intro n; exact Nat.le_refl n
  | cons tx rest ih =>
    intro n
    have hstep : n ≤ adjustStep account n tx := by
      unfold adjustStep
      split
      · exact Nat.le_succ n
      · exact Nat.le_refl n
    exact Nat.le_trans hstep (ih (adjustStep account n tx))

/-- **C2** — For every pool state, account, shard and committed nonce `n`,
the reconciled nonce returned by `adjust_nonce` is `≥ n`, and the
reconciliation mutates nothing: the pool (in particular its ready set for
every shard) is identical before and after the call. -/
theorem adjust_nonce_monotone_and_readonly (pool : TopPool) (account : AccountId)
    (n : Index) (shard : ShardIdentifier) :
    n ≤ (adjust_nonce pool account n shard).1 ∧
      (adjust_nonce pool account n shard).2 = pool ∧
      ∀ s, ((adjust_nonce pool account n shard).2).ready s = pool.ready s := by
  refine ⟨foldl_adjustStep_ge account (pool.ready shard) n, rfl, fun _ => rfl⟩

/-! ## `FullSystem::nonce` (`enclave/src/rpc/system/mod.rs`, lines 145-201)

The collaborators of `nonce` (the `state` module, `rsa3072` decryption,
SCALE decoding and `Stf::account_nonce`) live outside the included source
files; they are abstracted into an environment record, one field per call
the source makes, each with the source's success/failure shape. -/

abbrev Bytes := List Nat

/-- Error codes of the RPC layer, per `enum Error` in
`enclave/src/rpc/system/mod.rs` (StateError = 1, DecodeError = 2); the
returned `RpcError` wraps one of them. -/
inductive RpcErrorCode where
  | stateError
  | decodeError
  deriving Repr, DecidableEq

/-- The opaque state type together with the external collaborators the
`nonce` method calls: `state::exists`, `rsa3072::decrypt`,
`AccountId::decode`, `state::load`, `Stf::account_nonce` (returning the
SCALE-encoded nonce) and `Decode::decode` for `Index`. -/
structure SystemEnv where
  state_exists : ShardIdentifier → Bool
  decrypt : Bytes → Except Nat Bytes
  decode_account : Bytes → Except Nat AccountId
  load : ShardIdentifier → Except Nat Nat
  account_nonce : Nat → AccountId → Option Bytes
  decode_index : Bytes → Except Nat Index

/-- Embedding of `FullSystem::nonce`: when no state exists for the shard
it returns `Ok(0)`; otherwise it decrypts and decodes the account, loads
the state, reads the committed nonce (defaulting to 0 when
`Stf::account_nonce` returns `None`), and returns the `adjust_nonce`
reconciliation over the pool. -/
def FullSystem.nonce (env : SystemEnv) (pool : TopPool) (encrypted_account : Bytes)
    (shard : ShardIdentifier) : Except RpcErrorCode Index :=
  if !env.state_exists shard then .ok 0
  else
    match env.decrypt encrypted_account with
    | .error _ => .error .decodeError
    | .ok account_vec =>
      match env.decode_account account_vec with
      | .error _ => .error .decodeError
      | .ok account =>
        match env.load shard with
        | .error _ => .error .stateError
        | .ok state =>
          match env.account_nonce state account with
          | some nonce_encoded =>
            match env.decode_index nonce_encoded with
            | .ok index => .ok (adjust_nonce pool account index shard).1
            | .error _ => .error .decodeError
          | none => .ok (adjust_nonce pool account 0 shard).1

/-- **C9** — When no state has been initialized for the shard
(`state::exists` is false) the nonce query returns `Ok(0)` rather than an
error; and when the loaded state holds no nonce entry for the account
(`Stf::account_nonce` returns `None`), the committed nonce used for
reconciliation is 0. -/
theorem nonce_uninitialized_and_missing_entry (env : SystemEnv) (pool : TopPool)
    (encrypted_account account_vec : Bytes) (account : AccountId)
    (shard : ShardIdentifier) (state : Nat) :
    (env.state_exists shard = false →
      FullSystem.nonce env pool encrypted_account shard = .ok 0) ∧
    (env.state_exists shard = true →
      env.decrypt encrypted_account = .ok account_vec →
      env.decode_account account_vec = .ok account →
      env.load shard = .ok state →
      env.account_nonce state account = none →
      FullSystem.nonce env pool encrypted_account shard =
        .ok (adjust_nonce pool account 0 shard).1) := by
  constructor
  · intro h
    simp [FullSystem.nonce, h]
  · intro hex hdec hacc hload hnonce
    simp [FullSystem.nonce, hex, hdec, hacc, hload, hnonce]

/-- A concrete environment: shard 0 has no state; shard 1 has state 0 in
which account 1 has no nonce entry. -/
def exampleSystemEnv : SystemEnv where
  state_exists := fun s => s ≠ 0
  decrypt := fun b => .ok b
  decode_account := fun _ => .ok 1
  load := fun _ => .ok 0
  account_nonce := fun _ _ => none
  decode_index := fun _ => .error 0

/-- Witness for **C9**: on the concrete environment, the query for the
uninitialized shard 0 returns `Ok 0`, and the query for shard 1 (whose
state has no nonce entry for the account) reconciles from committed
nonce 0. -/
theorem nonce_uninitialized_and_missing_entry_witness :
    FullSystem.nonce exampleSystemEnv examplePool [] 0 = .ok 0 ∧
      FullSystem.nonce exampleSystemEnv examplePool [] 1 =
        .ok (adjust_nonce examplePool 1 0 1).1 := by
  constructor
  · exact (nonce_uninitialized_and_missing_entry exampleSystemEnv examplePool [] [] 1 0 0).1
      (by decide)
  · exact (nonce_uninitialized_and_missing_entry exampleSystemEnv examplePool [] [] 1 1 0).2
      (by decide) rfl rfl rfl rfl

/-! ## Sidechain block persistence (`worker/src/sidechain_db.rs`)

The RocksDB store is modelled as a finite map over a typed key space.
The source keys the one byte-string keyspace with four disjoint classes
(raw 32-byte block hashes, 40-byte `(shard, number)` SCALE encodings, the
13-byte `stored_shards` literal, and 52-byte `(last_sidechainblock, shard)`
encodings); the encodings never collide across classes, which the
`DBKey` inductive captures.  A `WriteBatch` is a list of puts applied
atomically by `db.write` (RocksDB's batch-write contract: a failed write
commits nothing). -/

abbrev Hash := Nat
abbrev SidechainBlockNumber := Nat

/-- A sidechain block as `update_db` observes it: its shard, its number,
and the rest of its content, opaque here. -/
structure SidechainBlock where
  shard_id : ShardIdentifier
  block_number : SidechainBlockNumber
  payload : Nat
  deriving Repr, DecidableEq

/-- A signed sidechain block (`SignedSidechainBlock` of
`substratee_worker_primitives`). -/
structure SignedSidechainBlock where
  block : SidechainBlock
  signature : Nat
  deriving Repr, DecidableEq

/-- `LastSidechainBlock` (`worker/src/sidechain_db.rs`, lines 70-76):
hash and number of the last sidechain block of a shard. -/
structure LastSidechainBlock where
  hash : Hash
  number : SidechainBlockNumber
  deriving Repr, DecidableEq

/-- The four disjoint key classes of the sidechain database. -/
inductive DBKey where
  | blockHash (h : Hash)
  | shardHeight (s : ShardIdentifier) (n : SidechainBlockNumber)
  | storedShards
  | lastBlock (s : ShardIdentifier)
  deriving Repr, DecidableEq

/-- The encoded values stored under those keys. -/
inductive DBValue where
  | encodedBlock (b : SignedSidechainBlock)
  | hashValue (h : Hash)
  | shardsList (ss : List ShardIdentifier)
  | lastBlockValue (lb : LastSidechainBlock)
  deriving Repr, DecidableEq

/-- The database contents. -/
def Store := DBKey → Option DBValue

def insertStore (st : Store) (k : DBKey) (v : DBValue) : Store :=
  fun q => if q = k then some v else st q

abbrev WriteBatch := List (DBKey × DBValue)

/-- `db.write(batch)`: every put of the batch applied, in order. -/
def applyBatch (st : Store) (batch : WriteBatch) : Store :=
  batch.foldl (fun s kv => insertStore s kv.1 kv.2) st

/-- `enum DBError` of `worker/src/sidechain_db.rs`. -/
inductive DBError where
  | OperationalError
  | DecodeError
  deriving Repr, DecidableEq

/-- Which of the fallible RocksDB calls of `update_db` fail: the
`get(STORED_SHARDS_KEY)` read, the atomic `write(batch)`, and the
per-shard `put` of the last-block marker. -/
structure DbFailure where
  get_stored_shards_fails : Bool
  write_batch_fails : Bool
  put_last_block_fails : ShardIdentifier → Bool

/-- `HashMap::insert`: replace the value of an existing key, otherwise
add the pair.  (`last_sidechain_blocks` is a `HashMap`; its iteration
order is unspecified, an association list fixes one — all its keys are
distinct, so the puts it drives commute.) -/
def insertAssoc (m : List (ShardIdentifier × LastSidechainBlock))
    (s : ShardIdentifier) (v : LastSidechainBlock) :
    List (ShardIdentifier × LastSidechainBlock) :=
  match m with
  | [] => [(s, v)]
  | (k, w) :: rest => if k = s then (k, v) :: rest else (k, w) :: insertAssoc rest s v

def lookupAssoc (m : List (ShardIdentifier × LastSidechainBlock))
    (s : ShardIdentifier) : Option LastSidechainBlock :=
  match m with
  | [] => none
  | (k, v) :: rest => if k = s then some v else lookupAssoc rest s

/-- `struct SidechainDB` (`worker/src/sidechain_db.rs`, lines 80-86). -/
structure SidechainDB where
  signed_blocks : List SignedSidechainBlock
  last_sidechain_blocks : List (ShardIdentifier × LastSidechainBlock)

/-- `SidechainDB::new`. -/
def SidechainDB.new (signed_blocks : List SignedSidechainBlock) : SidechainDB :=
  ⟨signed_blocks, []⟩

/-- Accumulator of the `for signed_block in self.signed_blocks` loop of
`update_db`: the write batch, the `last_sidechain_blocks` map, the
`currently_stored_shards` vector and the `new_shard` flag. -/
structure UpdateAcc where
  batch : WriteBatch
  lastBlocks : List (ShardIdentifier × LastSidechainBlock)
  shards : List ShardIdentifier
  newShard : Bool

/-- One iteration of the loop body of `update_db` (lines 121-140): put
the encoded block under its hash, put the hash under `(shard, number)`,
insert the `LastSidechainBlock` into the in-memory map, and record the
shard if it was unknown. -/
def updateStep (hashFn : SignedSidechainBlock → Hash) (acc : UpdateAcc)
    (sb : SignedSidechainBlock) : UpdateAcc :=
  let block_hash := hashFn sb
  let batch1 := acc.batch ++ [(.blockHash block_hash, .encodedBlock sb)]
  let block_shard := sb.block.shard_id
  let block_nr := sb.block.block_number
  let batch2 := batch1 ++ [(.shardHeight block_shard block_nr, .hashValue block_hash)]
  let lastBlocks := insertAssoc acc.lastBlocks block_shard ⟨block_hash, block_nr⟩
  if acc.shards.contains block_shard then
    { batch := batch2, lastBlocks := lastBlocks, shards := acc.shards,
      newShard := acc.newShard }
  else
    { batch := batch2, lastBlocks := lastBlocks, shards := acc.shards ++ [block_shard],
      newShard := true }

/-- The `for (shard, last_block) in self.last_sidechain_blocks` loop of
`update_db` (lines 150-155): one `db.put` per marker, each aborting the
loop on failure. -/
def putLastBlocks (fail : DbFailure) :
    Store → List (ShardIdentifier × LastSidechainBlock) → Except DBError Unit × Store
  | st, [] => (.ok (), st)
  | st, (s, lb) :: rest =>
    if fail.put_last_block_fails s then (.error .OperationalError, st)
    else putLastBlocks fail (insertStore st (.lastBlock s) (.lastBlockValue lb)) rest

/-- Embedding of `SidechainDB::update_db` (lines 106-158).  The content
hash `signed_block.hash()` is an opaque collaborator, passed as `hashFn`;
the store is threaded in and out so the database effect of each path is
explicit. -/
def update_db (hashFn : SignedSidechainBlock → Hash) (fail : DbFailure) (store : Store)
    (sdb : SidechainDB) : Except DBError Unit × Store × SidechainDB :=
  if sdb.signed_blocks.isEmpty then (.ok (), store, sdb)
  else if fail.get_stored_shards_fails then (.error .OperationalError, store, sdb)
  else
    let currently_stored_shards : List ShardIdentifier :=
      match store .storedShards with
      | some (.shardsList ss) => ss
      | _ => []
    let acc :=
      sdb.signed_blocks.foldl (updateStep hashFn)
        { batch := [], lastBlocks := sdb.last_sidechain_blocks,
          shards := currently_stored_shards, newShard := false }
    let batch :=
      if acc.newShard then acc.batch ++ [(.storedShards, .shardsList acc.shards)]
      else acc.batch
    let sdb1 : SidechainDB := { sdb with last_sidechain_blocks := acc.lastBlocks }
    if fail.write_batch_fails then (.error .OperationalError, store, sdb1)
    else
      let store1 := applyBatch store batch
      let out := putLastBlocks fail store1 acc.lastBlocks
      (out.1, out.2, sdb1)

/-- The last block of the list whose shard is `s` — the source's "current
blockchain state" for that shard after the loop. -/
def lastForShard (s : ShardIdentifier) :
    List SignedSidechainBlock → Option SignedSidechainBlock
  | [] => none
  | sb :: rest =>
    match lastForShard s rest with
    | some b => some b
    | none => if sb.block.shard_id = s then some sb else none

/-- **C10** — For every `SidechainDB` whose `signed_blocks` list is
empty, `update_db` returns `Ok` and performs no database write: the whole
store (block store, stored-shards list, every last-block marker) and the
struct itself are unchanged. -/
theorem update_db_empty_no_write (hashFn : SignedSidechainBlock → Hash)
    (fail : DbFailure) (store : Store) (sdb : SidechainDB)
    (hempty : sdb.signed_blocks = []) :
    update_db hashFn fail store sdb = (.ok (), store, sdb) := by
  unfold update_db
  rw [hempty]
  rfl

/-- Witness for **C10**: a concrete empty-batch `SidechainDB` against an
empty store, via `update_db_empty_no_write`. -/
theorem update_db_empty_no_write_witness :
    update_db (fun _ => 0) ⟨false, false, fun _ => false⟩ (fun _ => none)
        (SidechainDB.new []) =
      (.ok (), fun _ => none, SidechainDB.new []) :=
  update_db_empty_no_write (fun _ => 0) ⟨false, false, fun _ => false⟩
    (fun _ => none) (SidechainDB.new []) rfl

/-- **C5** — If the atomic block-store write of `update_db` fails, the
error is propagated to the caller and no part of the batch is committed:
the store — in particular every last-block marker — is exactly the store
before the call. -/
theorem update_db_write_failure_no_commit (hashFn : SignedSidechainBlock → Hash)
    (fail : DbFailure) (store : Store) (sdb : SidechainDB)
    (hne : sdb.signed_blocks ≠ [])
    (hget : fail.get_stored_shards_fails = false)
    (hwrite : fail.write_batch_fails = true) :
    (update_db hashFn fail store sdb).1 = .error .OperationalError ∧
      (update_db hashFn fail store sdb).2.1 = store := by
  have hempty : sdb.signed_blocks.isEmpty = false := by
    cases h : sdb.signed_blocks with
    | nil => exact absurd h hne
    | cons a l => rfl
  unfold update_db
  rw [hempty, hget, hwrite]
  exact ⟨rfl, rfl⟩

/-- Witness for **C5**: a one-block batch against a failing writer leaves
the concrete store untouched and surfaces the operational error, via
`update_db_write_failure_no_commit`. -/
theorem update_db_write_failure_no_commit_witness :
    (update_db (fun _ => 0) ⟨false, true, fun _ => false⟩ (fun _ => none)
        (SidechainDB.new [⟨⟨0, 1, 0⟩, 0⟩])).1 = .error .OperationalError ∧
      (update_db (fun _ => 0) ⟨false, true, fun _ => false⟩ (fun _ => none)
        (SidechainDB.new [⟨⟨0, 1, 0⟩, 0⟩])).2.1 = (fun _ => none) :=
  update_db_write_failure_no_commit (fun _ => 0) ⟨false, true, fun _ => false⟩
    (fun _ => none) (SidechainDB.new [⟨⟨0, 1, 0⟩, 0⟩]) (by decide) rfl rfl

/-! ### Closed form of the `update_db` loop and batch application -/

/-- The two puts the loop issues for one block. -/
def pairsOf (hashFn : SignedSidechainBlock → Hash) (sb : SignedSidechainBlock) : WriteBatch :=
  [(.blockHash (hashFn sb), .encodedBlock sb),
   (.shardHeight sb.block.shard_id sb.block.block_number, .hashValue (hashFn sb))]

/-- All puts the loop issues for a block list. -/
def batchOf (hashFn : SignedSidechainBlock → Hash) : List SignedSidechainBlock → WriteBatch
  | [] => []
  | sb :: rest => pairsOf hashFn sb ++ batchOf hashFn rest

theorem updateStep_batch (hashFn : SignedSidechainBlock → Hash) (acc : UpdateAcc)
    (sb : SignedSidechainBlock) :
    (updateStep hashFn acc sb).batch = acc.batch ++ pairsOf hashFn sb := by
  unfold updateStep
  dsimp only
  split <;> simp [pairsOf]

theorem updateStep_lastBlocks (hashFn : SignedSidechainBlock → Hash) (acc : UpdateAcc)
    (sb : SignedSidechainBlock) :
    (updateStep hashFn acc sb).lastBlocks =
      insertAssoc acc.lastBlocks sb.block.shard_id ⟨hashFn sb, sb.block.block_number⟩ := by
  unfold updateStep
  dsimp only
  split <;> rfl

theorem foldl_updateStep_batch (hashFn : SignedSidechainBlock → Hash) :
    ∀ (l : List SignedSidechainBlock) (acc : UpdateAcc),
      (l.foldl (updateStep hashFn) acc).batch = acc.batch ++ batchOf hashFn l := by
  intro l
  induction l with
  | nil => intro acc; simp [batchOf]
  | cons sb rest ih =>
    intro acc
    simp only [List.foldl_cons, batchOf]
    rw [ih, updateStep_batch, List.append_assoc]

theorem foldl_updateStep_lastBlocks (hashFn : SignedSidechainBlock → Hash) :
    ∀ (l : List SignedSidechainBlock) (acc : UpdateAcc),
      (l.foldl (updateStep hashFn) acc).lastBlocks =
        l.foldl
          (fun m sb => insertAssoc m sb.block.shard_id ⟨hashFn sb, sb.block.block_number⟩)
          acc.lastBlocks := by
  intro l
  induction l with
  | nil => intro acc; rfl
  | cons sb rest ih =>
    intro acc
    simp only [List.foldl_cons]
    rw [ih, updateStep_lastBlocks]

theorem applyBatch_append (st : Store) (l1 l2 : WriteBatch) :
    applyBatch st (l1 ++ l2) = applyBatch (applyBatch st l1) l2 := by
  unfold applyBatch
  exact List.foldl_append _ st l1 l2

theorem applyBatch_not_key (k : DBKey) :
    ∀ (l : WriteBatch) (st : Store), (∀ kv ∈ l, kv.1 ≠ k) → applyBatch st l k = st k := by
  intro l
  induction l with
  | nil => intro st _; rfl
  | cons kv rest ih =>
    intro st hne
    simp only [applyBatch, List.foldl_cons] at *
    rw [ih _ fun p hp => hne p (List.mem_cons_of_mem kv hp)]
    unfold insertStore
    rw [if_neg]
    exact fun h => hne kv (List.mem_cons_self kv rest) h.symm

theorem applyBatch_lookup_unique (k : DBKey) (v : DBValue) :
    ∀ (l : WriteBatch) (st : Store), (k, v) ∈ l →
      (∀ kv ∈ l, kv.1 = k → kv.2 = v) → applyBatch st l k = some v := by
  intro l
  induction l with
  | nil => intro st hmem _; exact absurd hmem (List.not_mem_nil _)
  | cons kv rest ih =>
    intro st hmem huniq
    simp only [applyBatch, List.foldl_cons]
    by_cases hrest : ∃ w, (k, w) ∈ rest
    · obtain ⟨w, hw⟩ := hrest
      have hwv : w = v := huniq (k, w) (List.mem_cons_of_mem kv hw) rfl
      subst hwv
      exact ih _ hw fun p hp hk => huniq p (List.mem_cons_of_mem kv hp) hk
    · have hkv : kv = (k, v) := by
        rcases List.mem_cons.mp hmem with h | h
        · exact h.symm
        · exact absurd ⟨v, h⟩ hrest
      subst hkv
      have hrest_ne : ∀ p ∈ rest, p.1 ≠ k := by
        intro p hp hpk
        exact hrest ⟨p.2, by rw [← hpk]; exact hp⟩
      have h1 : applyBatch (insertStore st k v) rest k = insertStore st k v k :=
        applyBatch_not_key k rest (insertStore st k v) hrest_ne
      have h2 : insertStore st k v k = some v := by
        unfold insertStore
        rw [if_pos rfl]
      exact h1.trans h2

theorem mem_batchOf_of_mem (hashFn : SignedSidechainBlock → Hash)
    {l : List SignedSidechainBlock} {sb : SignedSidechainBlock} (h : sb ∈ l) :
    (DBKey.blockHash (hashFn sb), DBValue.encodedBlock sb) ∈ batchOf hashFn l ∧
      (DBKey.shardHeight sb.block.shard_id sb.block.block_number,
        DBValue.hashValue (hashFn sb)) ∈ batchOf hashFn l := by
  induction l with
  | nil => exact absurd h (List.not_mem_nil sb)
  | cons x rest ih =>
    rcases List.mem_cons.mp h with hx | hx
    · subst hx
      constructor <;> simp [batchOf, pairsOf]
    · have := ih hx
      constructor <;>
        · simp only [batchOf, List.mem_append]
          exact Or.inr (by tauto)

theorem mem_batchOf_cases (hashFn : SignedSidechainBlock → Hash) :
    ∀ (l : List SignedSidechainBlock) (kv : DBKey × DBValue), kv ∈ batchOf hashFn l →
      ∃ b ∈ l,
        kv = (DBKey.blockHash (hashFn b), DBValue.encodedBlock b) ∨
        kv = (DBKey.shardHeight b.block.shard_id b.block.block_number,
          DBValue.hashValue (hashFn b)) := by
  intro l
  induction l with
  | nil => intro kv hkv; exact absurd hkv (List.not_mem_nil kv)
  | cons x rest ih =>
    intro kv hkv
    simp only [batchOf, List.mem_append] at hkv
    rcases hkv with hkv | hkv
    · simp only [pairsOf, List.mem_cons, List.not_mem_nil, or_false] at hkv
      rcases hkv with h | h
      · exact ⟨x, List.mem_cons_self x rest, Or.inl h⟩
      · exact ⟨x, List.mem_cons_self x rest, Or.inr h⟩
    · obtain ⟨b, hb, hcase⟩ := ih kv hkv
      exact ⟨b, List.mem_cons_of_mem x hb, hcase⟩

theorem putLastBlocks_ok (fail : DbFailure)
    (hput : ∀ s, fail.put_last_block_fails s = false) :
    ∀ (m : List (ShardIdentifier × LastSidechainBlock)) (st : Store),
      (putLastBlocks fail st m).1 = .ok () := by
  intro m
  induction m with
  | nil => intro st; rfl
  | cons p rest ih =>
    intro st
    obtain ⟨s, lb⟩ := p
    simp only [putLastBlocks, hput s, Bool.false_eq_true, if_neg]
    exact ih _

theorem putLastBlocks_preserves (fail : DbFailure) (k : DBKey)
    (hk : ∀ s, k ≠ DBKey.lastBlock s) :
    ∀ (m : List (ShardIdentifier × LastSidechainBlock)) (st : Store),
      (putLastBlocks fail st m).2 k = st k := by
  intro m
  induction m with
  | nil => intro st; rfl
  | cons p rest ih =>
    intro st
    obtain ⟨s, lb⟩ := p
    unfold putLastBlocks
    split
    · rfl
    · rw [ih]
      unfold insertStore
      rw [if_neg (hk s)]

theorem putLastBlocks_no_key (fail : DbFailure) (s : ShardIdentifier) :
    ∀ (m : List (ShardIdentifier × LastSidechainBlock)) (st : Store),
      (∀ p ∈ m, p.1 ≠ s) →
      (putLastBlocks fail st m).2 (.lastBlock s) = st (.lastBlock s) := by
  intro m
  induction m with
  | nil => intro st _; rfl
  | cons p rest ih =>
    intro st hne
    obtain ⟨t, lb⟩ := p
    unfold putLastBlocks
    split
    · rfl
    · rw [ih _ fun q hq => hne q (List.mem_cons_of_mem _ hq)]
      unfold insertStore
      rw [if_neg]
      intro h
      exact hne (t, lb) (List.mem_cons_self _ rest) (DBKey.lastBlock.inj h).symm

theorem putLastBlocks_lookup (fail : DbFailure)
    (hput : ∀ s, fail.put_last_block_fails s = false) :
    ∀ (m : List (ShardIdentifier × LastSidechainBlock)) (st : Store)
      (s : ShardIdentifier) (lb : LastSidechainBlock),
      (m.map Prod.fst).Nodup → lookupAssoc m s = some lb →
      (putLastBlocks fail st m).2 (.lastBlock s) = some (.lastBlockValue lb) := by
  intro m
  induction m with
  | nil => intro st s lb _ hlook; exact absurd hlook (by simp [lookupAssoc])
  | cons p rest ih =>
    intro st s lb hnodup hlook
    obtain ⟨k, v⟩ := p
    simp only [putLastBlocks, hput k, Bool.false_eq_true, if_false]
    simp only [lookupAssoc] at hlook
    have hkeys : k ∉ rest.map Prod.fst ∧ (rest.map Prod.fst).Nodup := by
      rw [List.map_cons] at hnodup
      exact List.nodup_cons.mp hnodup
    by_cases hks : k = s
    · rw [if_pos hks] at hlook
      have hv : v = lb := Option.some.inj hlook
      subst hv
      have hrest : ∀ q ∈ rest, q.1 ≠ s := by
        intro q hq hq1
        have hqmem : q.1 ∈ rest.map Prod.fst := List.mem_map_of_mem Prod.fst hq
        rw [hq1, ← hks] at hqmem
        exact hkeys.1 hqmem
      rw [putLastBlocks_no_key fail s rest _ hrest]
      unfold insertStore
      rw [if_pos (by rw [hks])]
    · rw [if_neg hks] at hlook
      exact ih _ s lb hkeys.2 hlook

theorem keys_insertAssoc (s : ShardIdentifier) (v : LastSidechainBlock) :
    ∀ (m : List (ShardIdentifier × LastSidechainBlock)),
      (insertAssoc m s v).map Prod.fst =
        if s ∈ m.map Prod.fst then m.map Prod.fst else m.map Prod.fst ++ [s] := by
  intro m
  induction m with
  | nil => simp [insertAssoc]
  | cons p rest ih =>
    obtain ⟨k, w⟩ := p
    by_cases hks : k = s
    · simp [insertAssoc, hks]
    · have hsk : ¬s = k := fun h => hks h.symm
      simp only [insertAssoc, if_neg hks, List.map_cons, ih]
      by_cases hmem : s ∈ rest.map Prod.fst
      · simp [hmem, hsk]
      · simp [hmem, hsk]

theorem nodup_keys_insertAssoc (s : ShardIdentifier) (v : LastSidechainBlock)
    (m : List (ShardIdentifier × LastSidechainBlock))
    (h : (m.map Prod.fst).Nodup) : ((insertAssoc m s v).map Prod.fst).Nodup := by
  rw [keys_insertAssoc]
  by_cases hmem : s ∈ m.map Prod.fst
  · rw [if_pos hmem]; exact h
  · rw [if_neg hmem]
    exact List.nodup_append.mpr
      ⟨h, List.nodup_singleton s, fun a ha hb => hmem ((List.mem_singleton.mp hb) ▸ ha)⟩

theorem lookupAssoc_insertAssoc_self (s : ShardIdentifier) (v : LastSidechainBlock) :
    ∀ (m : List (ShardIdentifier × LastSidechainBlock)),
      lookupAssoc (insertAssoc m s v) s = some v := by
  intro m
  induction m with
  | nil => simp [insertAssoc, lookupAssoc]
  | cons p rest ih =>
    obtain ⟨k, w⟩ := p
    by_cases hks : k = s
    · simp [insertAssoc, lookupAssoc, hks]
    · simp only [insertAssoc, if_neg hks, lookupAssoc, ih, if_neg hks]

theorem lookupAssoc_insertAssoc_ne (s t : ShardIdentifier) (v : LastSidechainBlock)
    (hts : t ≠ s) :
    ∀ (m : List (ShardIdentifier × LastSidechainBlock)),
      lookupAssoc (insertAssoc m s v) t = lookupAssoc m t := by
  have hst : ¬s = t := fun h => hts h.symm
  intro m
  induction m with
  | nil => simp [insertAssoc, lookupAssoc, hst]
  | cons p rest ih =>
    obtain ⟨k, w⟩ := p
    by_cases hks : k = s
    · have hkt : ¬k = t := by
        intro h
        rw [h] at hks
        exact hts hks
      simp [insertAssoc, if_pos hks, lookupAssoc, hkt]
    · simp only [insertAssoc, if_neg hks, lookupAssoc, ih]

/-- The per-shard insertion driven by one block of the loop. -/
def insBlock (hashFn : SignedSidechainBlock → Hash)
    (m : List (ShardIdentifier × LastSidechainBlock)) (sb : SignedSidechainBlock) :
    List (ShardIdentifier × LastSidechainBlock) :=
  insertAssoc m sb.block.shard_id ⟨hashFn sb, sb.block.block_number⟩

theorem nodup_keys_foldl_insBlock (hashFn : SignedSidechainBlock → Hash) :
    ∀ (blocks : List SignedSidechainBlock)
      (m : List (ShardIdentifier × LastSidechainBlock)),
      (m.map Prod.fst).Nodup →
      ((blocks.foldl (insBlock hashFn) m).map Prod.fst).Nodup := by
  intro blocks
  induction blocks with
  | nil => intro m h; exact h
  | cons sb rest ih =>
    intro m h
    exact ih _ (nodup_keys_insertAssoc _ _ m h)

theorem lookupAssoc_foldl_insBlock (hashFn : SignedSidechainBlock → Hash) :
    ∀ (blocks : List SignedSidechainBlock)
      (m : List (ShardIdentifier × LastSidechainBlock)) (s : ShardIdentifier),
      lookupAssoc (blocks.foldl (insBlock hashFn) m) s =
        match lastForShard s blocks with
        | some b => some ⟨hashFn b, b.block.block_number⟩
        | none => lookupAssoc m s := by
  intro blocks
  induction blocks with
  | nil => intro m s; rfl
  | cons sb rest ih =>
    intro m s
    simp only [List.foldl_cons, lastForShard]
    rw [ih]
    cases hlast : lastForShard s rest with
    | some b => rfl
    | none =>
      by_cases hs : sb.block.shard_id = s
      · rw [if_pos hs]
        show lookupAssoc
            (insertAssoc m sb.block.shard_id ⟨hashFn sb, sb.block.block_number⟩) s =
          some ⟨hashFn sb, sb.block.block_number⟩
        rw [hs]
        exact lookupAssoc_insertAssoc_self s _ m
      · rw [if_neg hs]
        show lookupAssoc
            (insertAssoc m sb.block.shard_id ⟨hashFn sb, sb.block.block_number⟩) s =
          lookupAssoc m s
        exact lookupAssoc_insertAssoc_ne sb.block.shard_id s
          ⟨hashFn sb, sb.block.block_number⟩ (fun h => hs h.symm) m

theorem lookup_batchOf_blockHash (hashFn : SignedSidechainBlock → Hash) (store : Store)
    (blocks : List SignedSidechainBlock) (tail : WriteBatch)
    (htail : ∀ kv ∈ tail, kv.1 = DBKey.storedShards)
    (hhash : (blocks.map hashFn).Nodup) (b : SignedSidechainBlock) (hb : b ∈ blocks) :
    applyBatch store (batchOf hashFn blocks ++ tail) (.blockHash (hashFn b)) =
      some (.encodedBlock b) := by
  apply applyBatch_lookup_unique
  · exact List.mem_append_left tail (mem_batchOf_of_mem hashFn hb).1
  · intro kv hkv hk
    rcases List.mem_append.mp hkv with hin | hin
    · obtain ⟨b2, hb2, hcase⟩ := mem_batchOf_cases hashFn blocks kv hin
      rcases hcase with h | h
      · subst h
        have hbb : b2 = b :=
          List.inj_on_of_nodup_map hhash hb2 hb (DBKey.blockHash.inj hk)
        rw [hbb]
      · subst h
        exact absurd hk (by intro hc; cases hc)
    · exact absurd (htail kv hin ▸ hk) (by intro hc; cases hc)

theorem lookup_batchOf_shardHeight (hashFn : SignedSidechainBlock → Hash) (store : Store)
    (blocks : List SignedSidechainBlock) (tail : WriteBatch)
    (htail : ∀ kv ∈ tail, kv.1 = DBKey.storedShards)
    (hsh : (blocks.map fun b => (b.block.shard_id, b.block.block_number)).Nodup)
    (b : SignedSidechainBlock) (hb : b ∈ blocks) :
    applyBatch store (batchOf hashFn blocks ++ tail)
        (.shardHeight b.block.shard_id b.block.block_number) =
      some (.hashValue (hashFn b)) := by
  apply applyBatch_lookup_unique
  · exact List.mem_append_left tail (mem_batchOf_of_mem hashFn hb).2
  · intro kv hkv hk
    rcases List.mem_append.mp hkv with hin | hin
    · obtain ⟨b2, hb2, hcase⟩ := mem_batchOf_cases hashFn blocks kv hin
      rcases hcase with h | h
      · subst h
        exact absurd hk (by intro hc; cases hc)
      · subst h
        have hpair : (b2.block.shard_id, b2.block.block_number) =
            (b.block.shard_id, b.block.block_number) := by
          have h1 := DBKey.shardHeight.inj hk
          exact Prod.ext h1.1 h1.2
        have hbb : b2 = b := List.inj_on_of_nodup_map hsh hb2 hb hpair
        rw [hbb]
    · exact absurd (htail kv hin ▸ hk) (by intro hc; cases hc)

/-- The `currently_stored_shards` read of `update_db`. -/
def initShards (store : Store) : List ShardIdentifier :=
  match store .storedShards with
  | some (.shardsList ss) => ss
  | _ => []

/-- The loop state after the whole per-block loop of `update_db`. -/
def runAcc (hashFn : SignedSidechainBlock → Hash) (store : Store) (sdb : SidechainDB) :
    UpdateAcc :=
  sdb.signed_blocks.foldl (updateStep hashFn)
    { batch := [], lastBlocks := sdb.last_sidechain_blocks,
      shards := initShards store, newShard := false }

/-- The batch handed to `db.write` by `update_db`. -/
def runBatch (hashFn : SignedSidechainBlock → Hash) (store : Store) (sdb : SidechainDB) :
    WriteBatch :=
  if (runAcc hashFn store sdb).newShard then
    (runAcc hashFn store sdb).batch ++
      [(.storedShards, .shardsList (runAcc hashFn store sdb).shards)]
  else (runAcc hashFn store sdb).batch

theorem update_db_run (hashFn : SignedSidechainBlock → Hash) (fail : DbFailure)
    (store : Store) (sdb : SidechainDB)
    (hempty : sdb.signed_blocks.isEmpty = false)
    (hget : fail.get_stored_shards_fails = false)
    (hwrite : fail.write_batch_fails = false) :
    update_db hashFn fail store sdb =
      ((putLastBlocks fail (applyBatch store (runBatch hashFn store sdb))
          (runAcc hashFn store sdb).lastBlocks).1,
       (putLastBlocks fail (applyBatch store (runBatch hashFn store sdb))
          (runAcc hashFn store sdb).lastBlocks).2,
       { sdb with last_sidechain_blocks := (runAcc hashFn store sdb).lastBlocks }) := by
  unfold update_db runBatch runAcc initShards
  rw [hempty, hget, hwrite]
  simp only [Bool.false_eq_true, if_false]

/-- **C7** — For every non-empty list of signed sidechain blocks (with
pairwise-distinct hashes and `(shard, number)` pairs) and every failure-free
database, `update_db` succeeds, persists each block under its block hash,
persists the block hash under `(shard, block number)`, and persists under
the `(last_block_marker, shard)` key the `{hash, number}` pair of the most
recently produced block for that shard — the last block for that shard in
list order. -/
theorem update_db_persists_blocks (hashFn : SignedSidechainBlock → Hash)
    (fail : DbFailure) (store : Store) (blocks : List SignedSidechainBlock)
    (hne : blocks ≠ [])
    (hget : fail.get_stored_shards_fails = false)
    (hwrite : fail.write_batch_fails = false)
    (hput : ∀ s, fail.put_last_block_fails s = false)
    (hhash : (blocks.map hashFn).Nodup)
    (hsh : (blocks.map fun b => (b.block.shard_id, b.block.block_number)).Nodup) :
    (update_db hashFn fail store (SidechainDB.new blocks)).1 = .ok () ∧
    (∀ b ∈ blocks,
      (update_db hashFn fail store (SidechainDB.new blocks)).2.1
          (.blockHash (hashFn b)) = some (.encodedBlock b)) ∧
    (∀ b ∈ blocks,
      (update_db hashFn fail store (SidechainDB.new blocks)).2.1
          (.shardHeight b.block.shard_id b.block.block_number) =
        some (.hashValue (hashFn b))) ∧
    (∀ s b, lastForShard s blocks = some b →
      (update_db hashFn fail store (SidechainDB.new blocks)).2.1 (.lastBlock s) =
        some (.lastBlockValue ⟨hashFn b, b.block.block_number⟩)) := by
  have hempty : (SidechainDB.new blocks).signed_blocks.isEmpty = false := by
    cases hbl : blocks with
    | nil => exact absurd hbl hne
    | cons a l => rfl
  have hrun := update_db_run hashFn fail store (SidechainDB.new blocks) hempty hget hwrite
  have hAccBatch : (runAcc hashFn store (SidechainDB.new blocks)).batch =
      batchOf hashFn blocks := by
    unfold runAcc
    rw [foldl_updateStep_batch]
    rfl
  have hAccLast : (runAcc hashFn store (SidechainDB.new blocks)).lastBlocks =
      blocks.foldl (insBlock hashFn) [] := by
    unfold runAcc
    rw [foldl_updateStep_lastBlocks]
    rfl
  have hbatchForm : ∃ tail, runBatch hashFn store (SidechainDB.new blocks) =
      batchOf hashFn blocks ++ tail ∧ ∀ kv ∈ tail, kv.1 = DBKey.storedShards := by
    unfold runBatch
    by_cases hns : (runAcc hashFn store (SidechainDB.new blocks)).newShard
    · refine ⟨[(.storedShards,
        .shardsList (runAcc hashFn store (SidechainDB.new blocks)).shards)], ?_, ?_⟩
      · rw [if_pos hns, hAccBatch]
      · intro kv hkv
        rw [List.mem_singleton.mp hkv]
    · refine ⟨[], ?_, ?_⟩
      · rw [if_neg hns, hAccBatch, List.append_nil]
      · intro kv hkv
        exact absurd hkv (List.not_mem_nil kv)
  obtain ⟨tail, htail_eq, htail⟩ := hbatchForm
  refine ⟨?_, ?_, ?_, ?_⟩
  · rw [hrun]
    exact putLastBlocks_ok fail hput _ _
  · intro b hb
    rw [hrun]
    show (putLastBlocks fail (applyBatch store (runBatch hashFn store (SidechainDB.new blocks)))
        (runAcc hashFn store (SidechainDB.new blocks)).lastBlocks).2
        (.blockHash (hashFn b)) = some (.encodedBlock b)
    rw [putLastBlocks_preserves fail _ (fun s h => DBKey.noConfusion h), htail_eq]
    exact lookup_batchOf_blockHash hashFn store blocks tail htail hhash b hb
  · intro b hb
    rw [hrun]
    show (putLastBlocks fail (applyBatch store (runBatch hashFn store (SidechainDB.new blocks)))
        (runAcc hashFn store (SidechainDB.new blocks)).lastBlocks).2
        (.shardHeight b.block.shard_id b.block.block_number) = some (.hashValue (hashFn b))
    rw [putLastBlocks_preserves fail _ (fun s h => DBKey.noConfusion h), htail_eq]
    exact lookup_batchOf_shardHeight hashFn store blocks tail htail hsh b hb
  · intro s b hsb
    rw [hrun]
    show (putLastBlocks fail (applyBatch store (runBatch hashFn store (SidechainDB.new blocks)))
        (runAcc hashFn store (SidechainDB.new blocks)).lastBlocks).2
        (.lastBlock s) = some (.lastBlockValue ⟨hashFn b, b.block.block_number⟩)
    apply putLastBlocks_lookup fail hput
    · rw [hAccLast]
      exact nodup_keys_foldl_insBlock hashFn blocks [] List.nodup_nil
    · rw [hAccLast, lookupAssoc_foldl_insBlock, hsb]

/-- Block list for the persistence witness: two blocks of shard 0 at
heights 1 and 2, one block of shard 1 at height 1. -/
def wBlocks : List SignedSidechainBlock :=
  [⟨⟨0, 1, 0⟩, 0⟩, ⟨⟨0, 2, 0⟩, 0⟩, ⟨⟨1, 1, 0⟩, 0⟩]

/-- An injective-enough concrete content hash for the witness. -/
def wHash : SignedSidechainBlock → Hash :=
  fun b => 10 * b.block.shard_id + b.block.block_number

/-- Witness for **C7**: on the concrete three-block batch every block is
stored under its hash, the height index points at the hash, and the shard-0
marker holds the later shard-0 block, via `update_db_persists_blocks`. -/
theorem update_db_persists_blocks_witness :
    (update_db wHash ⟨false, false, fun _ => false⟩ (fun _ => none)
        (SidechainDB.new wBlocks)).1 = .ok () ∧
    (update_db wHash ⟨false, false, fun _ => false⟩ (fun _ => none)
        (SidechainDB.new wBlocks)).2.1 (.blockHash 2) =
      some (.encodedBlock ⟨⟨0, 2, 0⟩, 0⟩) ∧
    (update_db wHash ⟨false, false, fun _ => false⟩ (fun _ => none)
        (SidechainDB.new wBlocks)).2.1 (.shardHeight 0 2) = some (.hashValue 2) ∧
    (update_db wHash ⟨false, false, fun _ => false⟩ (fun _ => none)
        (SidechainDB.new wBlocks)).2.1 (.lastBlock 0) =
      some (.lastBlockValue ⟨2, 2⟩) := by
  have h := update_db_persists_blocks wHash ⟨false, false, fun _ => false⟩ (fun _ => none)
    wBlocks (by decide) rfl rfl (fun _ => rfl) (by decide) (by decide)
  exact ⟨h.1, h.2.1 ⟨⟨0, 2, 0⟩, 0⟩ (by decide), h.2.2.1 ⟨⟨0, 2, 0⟩, 0⟩ (by decide),
    h.2.2.2 0 ⟨⟨0, 2, 0⟩, 0⟩ (by decide)⟩

/-! ## Slot production entry point
(`enclave-runtime/src/top_pool_execution.rs`, lines 83-163)

`execute_top_pool_trusted_calls_internal` is embedded as a trace-producing
function: each run yields its result, the ordered list of lock and side
effect events it performed, and the persisted last-slot marker.  Every
fallible collaborator call of the source is driven by a boolean of the
environment; the `?`-return paths drop the explicitly bound
`_enclave_write_lock` guard at scope exit, which the traces record as a
`releaseLock` event. -/

/-- The observable events of one invocation: the enclave-wide write lock
being acquired/released, the Aura block production (the only point that
mutates pool and state), and the two network-facing ocalls of
`send_blocks_and_extrinsics` (block gossip and extrinsic submission). -/
inductive Event where
  | acquireLock
  | releaseLock
  | produceBlocks
  | gossipBlocks
  | sendExtrinsics
  deriving Repr, DecidableEq

/-- Outcomes of the fallible steps of the entry point. -/
inductive ExecError where
  | lockPoisoned
  | componentNotInitialized
  | validatorError
  | cryptoError
  | sealError
  | stateError
  | consensusError
  | ocallError
  | extrinsicsError
  | sendError
  deriving Repr, DecidableEq

/-- Success/failure of each collaborator call the entry point makes, in
source order: `EnclaveLock::write_all`, the dispatcher component get, the
validator access, the two unseals, the rpc author get, the last-slot seal
access inside `yield_next_slot`, `list_shards`, `exec_aura_on_slot`,
`propose_sidechain_blocks`, `create_extrinsics`, `send_extrinsics`. -/
structure ExecEnv where
  lock_ok : Bool
  dispatcher_initialized : Bool
  validator_ok : Bool
  authority_ok : Bool
  state_key_ok : Bool
  rpc_author_initialized : Bool
  yield_ok : Bool
  list_shards_ok : Bool
  aura_ok : Bool
  gossip_ok : Bool
  create_extrinsics_ok : Bool
  send_extrinsics_ok : Bool

/-- Modelled from the spec: 4.3 Slot Scheduler, `yield_next_slot` (the body
lives in `its_sidechain::slots`, outside the included sources) — the slot
number is `now / duration`; if it is not strictly greater than the persisted
marker nothing is yielded, otherwise the marker is advanced to the slot
number and the slot is returned. -/
def yield_next_slot (now duration marker : Nat) : Option Nat × Nat :=
  let slot := now / duration
  if marker < slot then (some slot, slot) else (none, marker)

/-- The `Some(slot)` arm of the entry point: `list_shards`,
`exec_aura_on_slot` (the production), the explicit `drop` of the write
lock, then `send_blocks_and_extrinsics` (gossip ocall, extrinsic creation
and submission — lines 148-154 and 207-229). -/
def run_yielded_slot (env : ExecEnv) (marker2 : Nat) :
    Except ExecError Unit × List Event × Nat :=
  if !env.list_shards_ok then
    (.error .stateError, [.acquireLock, .releaseLock], marker2)
  else if !env.aura_ok then
    (.error .consensusError, [.acquireLock, .produceBlocks, .releaseLock], marker2)
  else if !env.gossip_ok then
    (.error .ocallError,
     [.acquireLock, .produceBlocks, .releaseLock, .gossipBlocks], marker2)
  else if !env.create_extrinsics_ok then
    (.error .extrinsicsError,
     [.acquireLock, .produceBlocks, .releaseLock, .gossipBlocks], marker2)
  else if !env.send_extrinsics_ok then
    (.error .sendError,
     [.acquireLock, .produceBlocks, .releaseLock, .gossipBlocks, .sendExtrinsics],
     marker2)
  else
    (.ok (),
     [.acquireLock, .produceBlocks, .releaseLock, .gossipBlocks, .sendExtrinsics],
     marker2)

/-- Embedding of `execute_top_pool_trusted_calls_internal`: result, event
trace, and marker after the run. -/
def execute_top_pool_trusted_calls_internal (env : ExecEnv) (now duration marker : Nat) :
    Except ExecError Unit × List Event × Nat :=
  if !env.lock_ok then (.error .lockPoisoned, [], marker)
  else if !env.dispatcher_initialized then
    (.error .componentNotInitialized, [.acquireLock, .releaseLock], marker)
  else if !env.validator_ok then
    (.error .validatorError, [.acquireLock, .releaseLock], marker)
  else if !env.authority_ok then
    (.error .cryptoError, [.acquireLock, .releaseLock], marker)
  else if !env.state_key_ok then
    (.error .cryptoError, [.acquireLock, .releaseLock], marker)
  else if !env.rpc_author_initialized then
    (.error .componentNotInitialized, [.acquireLock, .releaseLock], marker)
  else if !env.yield_ok then
    (.error .sealError, [.acquireLock, .releaseLock], marker)
  else
    match yield_next_slot now duration marker with
    | (none, marker2) => (.ok (), [.acquireLock, .releaseLock], marker2)
    | (some _slot, marker2) => run_yielded_slot env marker2

/-- The lock discipline checker: scanning the trace with the lock-held
flag, block production may only happen while the lock is held, and the
network-facing events (gossip, extrinsic submission) only while it is
not. -/
def lockDiscipline (held : Bool) : List Event → Bool
  | [] => true
  | e :: rest =>
    match e with
    | .acquireLock => lockDiscipline true rest
    | .releaseLock => lockDiscipline false rest
    | .produceBlocks => held && lockDiscipline held rest
    | .gossipBlocks => !held && lockDiscipline held rest
    | .sendExtrinsics => !held && lockDiscipline held rest

theorem lockDiscipline_run_yielded_slot (env : ExecEnv) (marker2 : Nat) :
    lockDiscipline false (run_yielded_slot env marker2).2.1 = true := by
  unfold run_yielded_slot
  repeat' split
  all_goals rfl

/-- **C3** — In every execution of the slot-production entry point, the
enclave-wide write lock is acquired before slot production begins and is
released before any network-facing side effect: in the trace of every run,
`produceBlocks` happens only while the lock is held, and `gossipBlocks` /
`sendExtrinsics` only after it has been released — I/O never happens while
the lock is held. -/
theorem exec_lock_discipline (env : ExecEnv) (now duration marker : Nat) :
    lockDiscipline false
      (execute_top_pool_trusted_calls_internal env now duration marker).2.1 = true := by
  unfold execute_top_pool_trusted_calls_internal
  repeat' split
  all_goals first
    | rfl
    | exact lockDiscipline_run_yielded_slot env _

/-- **C4** — For every invocation of the slot-production entry point in
which `yield_next_slot` yields no slot (the computed slot number
`now / duration` is not strictly greater than the persisted marker), and in
which the steps before the scheduler succeed, the invocation returns
success, produces no block and performs no I/O (the trace holds only the
lock acquisition and its release — no `produceBlocks`, so no pool or state
mutation), and leaves the marker unchanged; hence a second invocation
within the same time window mutates nothing. -/
theorem exec_no_slot_skips (env : ExecEnv) (now duration marker : Nat)
    (hlock : env.lock_ok = true)
    (hdisp : env.dispatcher_initialized = true)
    (hval : env.validator_ok = true)
    (hauth : env.authority_ok = true)
    (hkey : env.state_key_ok = true)
    (hrpc : env.rpc_author_initialized = true)
    (hyield : env.yield_ok = true)
    (hslot : now / duration ≤ marker) :
    execute_top_pool_trusted_calls_internal env now duration marker =
      (.ok (), [.acquireLock, .releaseLock], marker) := by
  unfold execute_top_pool_trusted_calls_internal yield_next_slot
  rw [hlock, hdisp, hval, hauth, hkey, hrpc, hyield]
  simp only [Bool.not_true, Bool.false_eq_true, if_false]
  rw [if_neg (Nat.not_lt.mpr hslot)]

/-- The all-collaborators-succeed environment. -/
def envAllOk : ExecEnv :=
  ⟨true, true, true, true, true, true, true, true, true, true, true, true⟩

/-- Witness for **C4**: with slot duration 5, a first invocation at time 10
produces (slot 2) and advances the marker to 2; the second invocation at
time 12 — the same time window — returns success with only the lock
acquire/release in its trace and the marker still 2, via
`exec_no_slot_skips`. -/
theorem exec_no_slot_skips_witness :
    (execute_top_pool_trusted_calls_internal envAllOk 10 5 0).2.2 = 2 ∧
      execute_top_pool_trusted_calls_internal envAllOk 12 5 2 =
        (.ok (), [.acquireLock, .releaseLock], 2) :=
  ⟨rfl, exec_no_slot_skips envAllOk 12 5 2 rfl rfl rfl rfl rfl rfl rfl (by decide)⟩

/-! ## Leadership strategies (claim strategy of the Aura worker)

`exec_aura_on_slot` (`enclave-runtime/src/top_pool_execution.rs`, lines
186-195) constructs the Aura worker with
`.with_claim_strategy(SlotClaimStrategy::Always)`; the strategy type and
the claim decision live in `its_sidechain::aura`, outside the included
sources, and are modelled from the spec. -/

abbrev Authority := Nat

/-- Modelled from the spec: 4.4 Block Producer leadership — the two
strategies selected at construction. -/
inductive SlotClaimStrategy where
  | always
  | roundRobin
  deriving Repr, DecidableEq

/-- Modelled from the spec: the leadership decision — `always` proceeds on
every slot; `roundRobin` proceeds exactly for the authority indexed by
`slot_number mod |authority_set|`. -/
def claim_slot (strategy : SlotClaimStrategy) (authority : Authority)
    (authorities : List Authority) (slot : Nat) : Bool :=
  match strategy with
  | .always => true
  | .roundRobin => authorities.get? (slot % authorities.length) == some authority

/-- Modelled from the spec: the per-shard slot worker outcome — a
non-leader skips the shard for the slot (no block, no error), a leader
produces. -/
def on_slot_for_shard (strategy : SlotClaimStrategy) (authority : Authority)
    (authorities : List Authority) (slot : Nat) (produced : SignedSidechainBlock) :
    Except ExecError (Option SignedSidechainBlock) :=
  if claim_slot strategy authority authorities slot then .ok (some produced) else .ok none

/-- **C6** — The block producer supports the two leadership strategies
selected at construction: under `always` the enclave attempts production on
every slot; under `roundRobin` exactly the authority indexed by
`slot mod |authority_set|` proceeds, and a non-leader skips the shard for
the slot without error. -/
theorem leadership_strategies (authority : Authority) (authorities : List Authority)
    (slot : Nat) (b : SignedSidechainBlock) :
    claim_slot .always authority authorities slot = true ∧
    (claim_slot .roundRobin authority authorities slot = true ↔
      authorities.get? (slot % authorities.length) = some authority) ∧
    (claim_slot .roundRobin authority authorities slot = false →
      on_slot_for_shard .roundRobin authority authorities slot b = .ok none) := by
  refine ⟨rfl, ?_, ?_⟩
  · simp [claim_slot]
  · intro h
    unfold on_slot_for_shard
    rw [h]
    rfl

/-- Witness for **C6**: with authority set `[0, 1]` and slot 0, authority 1
is not the round-robin leader (index `0 mod 2 = 0` selects authority 0) and
skips without error, while `always` claims the slot, via
`leadership_strategies`. -/
theorem leadership_strategies_witness :
    claim_slot .always 1 [0, 1] 0 = true ∧
      on_slot_for_shard .roundRobin 1 [0, 1] 0 ⟨⟨0, 1, 0⟩, 0⟩ = .ok none :=
  ⟨(leadership_strategies 1 [0, 1] 0 ⟨⟨0, 1, 0⟩, 0⟩).1,
    (leadership_strategies 1 [0, 1] 0 ⟨⟨0, 1, 0⟩, 0⟩).2.2 (by decide)⟩

/-! ## Getter/call separation in the trusted-operation pool

The pool internals (`top_pool`, `top_pool_rpc_author`) are outside the
included sources; the disjoint per-shard collections are modelled from the
spec (4.1 Trusted Operation Pool, and testable property 5), whose
observable behavior `test_differentiate_getter_and_call_works`
(`enclave-runtime/src/tests.rs`, lines 220-255) fixes. -/

/-- A signed trusted call: sender account, account nonce, opaque rest. -/
structure TrustedCallSigned where
  account : AccountId
  nonce : Index
  payload : Nat
  deriving Repr, DecidableEq

/-- A signed trusted getter: sender account, opaque query. -/
structure TrustedGetterSigned where
  account : AccountId
  payload : Nat
  deriving Repr, DecidableEq

/-- A trusted operation is either a call or a read-only getter. -/
inductive TrustedOperation where
  | call (c : TrustedCallSigned)
  | getter (g : TrustedGetterSigned)
  deriving Repr, DecidableEq

/-- Modelled from the spec: the pool keeps calls and getters in disjoint
per-shard collections. -/
structure PoolState where
  calls : ShardIdentifier → List TrustedCallSigned
  getters : ShardIdentifier → List TrustedGetterSigned

def emptyPool : PoolState := ⟨fun _ => [], fun _ => []⟩

/-- Modelled from the spec: `submit` routes a call into the calls
collection of its shard and a getter into the getters collection; the
other collection is untouched. -/
def submit_operation (p : PoolState) (shard : ShardIdentifier) (op : TrustedOperation) :
    PoolState :=
  match op with
  | .call c => ⟨fun s => if s = shard then p.calls s ++ [c] else p.calls s, p.getters⟩
  | .getter g => ⟨p.calls, fun s => if s = shard then p.getters s ++ [g] else p.getters s⟩

/-- `ready_operations(shard)`: the calls of the shard. -/
def ready_operations (p : PoolState) (shard : ShardIdentifier) : List TrustedCallSigned :=
  p.calls shard

/-- `pending_getters(shard)`: the getters of the shard. -/
def pending_getters (p : PoolState) (shard : ShardIdentifier) : List TrustedGetterSigned :=
  p.getters shard

/-- The nonce-reconciliation view of the pool: each ready call provides its
`(account, nonce)` tag, as `adjust_nonce` consumes it. -/
def PoolState.toNoncePool (p : PoolState) : TopPool :=
  ⟨fun s => (p.calls s).map fun c => ⟨[(c.account, c.nonce)]⟩⟩

/-- **C8** — Getters and calls are kept in disjoint collections: after
submitting one signed getter and one signed call for a shard, the ready
calls for that shard are exactly the call and the pending getters exactly
the getter; submitting a getter never changes the ready operations of any
shard and never affects the nonce bookkeeping (`adjust_nonce` over the
pool's ready view is unchanged). -/
theorem getter_call_separation (shard : ShardIdentifier) (c : TrustedCallSigned)
    (g : TrustedGetterSigned) (p : PoolState) (account : AccountId) (n : Index)
    (s2 : ShardIdentifier) :
    ready_operations
        (submit_operation (submit_operation emptyPool shard (.getter g)) shard (.call c))
        shard = [c] ∧
    pending_getters
        (submit_operation (submit_operation emptyPool shard (.getter g)) shard (.call c))
        shard = [g] ∧
    ready_operations (submit_operation p shard (.getter g)) s2 = ready_operations p s2 ∧
    (adjust_nonce (submit_operation p shard (.getter g)).toNoncePool account n s2).1 =
      (adjust_nonce p.toNoncePool account n s2).1 := by
  refine ⟨?_, ?_, rfl, rfl⟩
  · simp [ready_operations, submit_operation, emptyPool]
  · simp [pending_getters, submit_operation, emptyPool]

end Worker
